import Mathlib

/-!
Shallow embedding of the temperature-based GPU fan controller
(`hardware-setup/scripts/ml-fan-control.py`) and verification of its
specified properties.

Modelling conventions:
* Machine integers are `Int` (Python ints are unbounded, so no overflow).
* Python floats that only carry exact small decimals (poll intervals,
  thresholds, wall-clock times, temperature trends over integer samples)
  are modelled as `Rat`; every float operation the controller performs on
  them (subtraction, halving, comparison, `int(...)` truncation) is exact
  at these magnitudes, so the rational model coincides with the code.
* Python `int(x)` on a quotient truncates toward zero; on an exact
  rational `n / d` this is `Int.tdiv` of numerator by denominator.
* `deque(maxlen=10)` is a list that keeps its 10 newest elements, newest
  at the end.
* Fallible reads are modelled with `Option`: `none` stands for the sensor
  read raising an exception, which the control loop catches.
-/

/-- Truncation toward zero of a rational, modelling Python `int(...)` applied
to an exact quotient. -/
def ratTrunc (q : Rat) : Int := q.num.tdiv (q.den : Int)

/-- Python `max` over a list of integers. The guarded call sites never pass
an empty list; the default 0 is unreachable there. -/
def listMax : List Int → Int
  | [] => 0
  | x :: xs => xs.foldl max x

/-- `deque(maxlen=10).append`: append at the end, evict oldest beyond 10. -/
def dequeAppend (xs : List Int) (x : Int) : List Int :=
  let ys := xs ++ [x]
  ys.drop (ys.length - 10)

-- Configuration constants from the top of ml-fan-control.py.

/-- `EMERGENCY_TEMP = 90.0`; compared only against integer temperatures. -/
def EMERGENCY_TEMP : Int := 90

/-- `MIN_PWM = 110`. -/
def MIN_PWM : Int := 110

/-- `MAX_PWM = 255`. -/
def MAX_PWM : Int := 255

/-- `MAX_PWM_CHANGE_PER_SEC = 10`. -/
def MAX_PWM_CHANGE_PER_SEC : Int := 10

/-- `POLL_INTERVAL_CRITICAL = 0.05`. -/
def POLL_INTERVAL_CRITICAL : Rat := 5 / 100

/-- `POLL_INTERVAL_NORMAL = 0.1`. -/
def POLL_INTERVAL_NORMAL : Rat := 1 / 10

/-- `TEMP_INTAKE_POINTS`. -/
def TEMP_INTAKE_POINTS : List (Int × Int) :=
  [(50, 110), (65, 170), (75, 210), (82, 230), (90, 255)]

/-- `TEMP_EXHAUST_POINTS`. -/
def TEMP_EXHAUST_POINTS : List (Int × Int) :=
  [(50, 110), (65, 140), (75, 180), (82, 220), (90, 255)]

/-- `EXPLORE_HOLD_TIME = 30.0` seconds. -/
def EXPLORE_HOLD_TIME : Rat := 30

/-- `EXPLORE_EXHAUST_LEVELS = [110, 130, 150, 170, 190, 210, 230, 255]`. -/
def EXPLORE_EXHAUST_LEVELS : List Int := [110, 130, 150, 170, 190, 210, 230, 255]

/-- `EXPLORE_TEMP_CEILING = 85`. -/
def EXPLORE_TEMP_CEILING : Int := 85

/-- `self.exhaust_min_pwm = 150` set in `FanController.__init__`. -/
def exhaust_min_pwm : Int := 150

/-- One interpolation step of `get_temp_based_pwm`'s segment loop:
`if t2 == t1: return p1` else `int(p1 + (temp - t1) / (t2 - t1) * (p2 - p1))`.
The Python expression is the exact quotient
`(p1*(t2-t1) + (temp-t1)*(p2-p1)) / (t2-t1)` truncated toward zero,
which is `Int.tdiv` of that numerator by `t2 - t1`. -/
def interpSeg (p q : Int × Int) (temp : Int) : Int :=
  if q.1 = p.1 then p.2
  else (p.2 * (q.1 - p.1) + (temp - p.1) * (q.2 - p.2)).tdiv (q.1 - p.1)

/-- The `for i in range(len(points) - 1)` loop of `get_temp_based_pwm`:
return the interpolation of the first adjacent pair `(p, q)` with
`p.1 <= temp <= q.1`, or `none` if no pair matches. -/
def findSegment : List (Int × Int) → Int → Option Int
  | p :: q :: rest, temp =>
    if p.1 ≤ temp ∧ temp ≤ q.1 then some (interpSeg p q temp)
    else findSegment (q :: rest) temp
  | _, _ => none

/-- `FanController.get_temp_based_pwm(temp, points)` (lines 187-210).
On an empty curve the Python code would raise `IndexError`; the claims only
concern non-empty curves, and the 0 in that branch is never relied upon. -/
def get_temp_based_pwm (temp : Int) (points : List (Int × Int)) : Int :=
  match points with
  | [] => 0
  | p0 :: rest =>
    if temp ≤ p0.1 then p0.2
    else
      let plast := (p0 :: rest).getLastD (0, 0)
      if temp ≥ plast.1 then plast.2
      else
        match findSegment (p0 :: rest) temp with
        | some v => v
        | none => plast.2

/-- Strictly increasing x-coordinates of a curve (the validated-curve
precondition in the spec). -/
def sortedX : List (Int × Int) → Bool
  | p :: q :: rest => decide (p.1 < q.1) && sortedX (q :: rest)
  | _ => true

/-- Non-decreasing PWM values of a curve (the validated-curve
precondition in the spec). -/
def pwmMono : List (Int × Int) → Bool
  | p :: q :: rest => decide (p.2 ≤ q.2) && pwmMono (q :: rest)
  | _ => true

/-- Mutable state of `FanController` relevant to the control decisions:
current PWM per fan, the three `deque(maxlen=10)` history buffers, and the
exploration-mode fields. -/
structure FanState where
  current_intake_pwm : Int
  current_exhaust_pwm : Int
  temp_history : List Int
  util_history : List Int
  pwm_history : List Int
  explore_exhaust_idx : Nat
  explore_start_time : Option Rat
  explore_load_bucket : Option Int
  deriving Repr, DecidableEq

/-- State right after `FanController.__init__` (lines 126-150): intake at
`MIN_PWM`, exhaust at `exhaust_min_pwm`, empty histories, exploration index
at the last (highest) level. -/
def initState : FanState where
  current_intake_pwm := MIN_PWM
  current_exhaust_pwm := exhaust_min_pwm
  temp_history := []
  util_history := []
  pwm_history := []
  explore_exhaust_idx := EXPLORE_EXHAUST_LEVELS.length - 1
  explore_start_time := none
  explore_load_bucket := none

/-- `FanController.get_temp_trend` (lines 251-257): 0 with fewer than 3
history samples, else `(recent[-1] - recent[0]) / (len(recent) - 1)` over
the last 3 samples. -/
def get_temp_trend (temp_history : List Int) : Rat :=
  if temp_history.length < 3 then 0
  else
    let recent := temp_history.drop (temp_history.length - 3)
    ((recent.getLastD 0 - recent.headD 0 : Int) : Rat) / ((recent.length : Rat) - 1)

/-- `FanController.find_optimal_pwm` (lines 212-242): emergency override,
then trend boost, then the temperature curves. Returns
(intake target, exhaust target, driver string). -/
def find_optimal_pwm (s : FanState) (temps : List Int) : Int × Int × String :=
  let max_temp := listMax temps
  if max_temp ≥ EMERGENCY_TEMP then (MAX_PWM, MAX_PWM, "emergency")
  else
    let temp_trend := get_temp_trend s.temp_history
    if temp_trend > 5 then
      let trend_boost := min 30 (ratTrunc (temp_trend * 5))
      (min MAX_PWM (s.current_intake_pwm + trend_boost),
       min MAX_PWM (s.current_exhaust_pwm + trend_boost), "trend")
    else
      (get_temp_based_pwm max_temp TEMP_INTAKE_POINTS,
       get_temp_based_pwm max_temp TEMP_EXHAUST_POINTS, "temp")

/-- `FanController.get_poll_interval` (lines 244-249). -/
def get_poll_interval (max_util max_temp : Int) : Rat :=
  if max_util ≥ 90 ∨ max_temp ≥ 80 then POLL_INTERVAL_CRITICAL
  else POLL_INTERVAL_NORMAL

/-- `FanController.apply_rate_limit` (lines 322-336):
`max_decrease = max(int(MAX_PWM_CHANGE_PER_SEC * poll_interval), 5)`;
decreases are capped, increases and emergencies pass through. -/
def apply_rate_limit (target_pwm current_pwm : Int) (poll_interval : Rat)
    (emergency : Bool) : Int :=
  if emergency then target_pwm
  else if target_pwm ≥ current_pwm then target_pwm
  else
    let max_decrease := ratTrunc ((MAX_PWM_CHANGE_PER_SEC : Rat) * poll_interval)
    let max_decrease := max max_decrease 5
    if target_pwm < current_pwm - max_decrease then current_pwm - max_decrease
    else target_pwm

/-- `FanController.explore_exhaust` (lines 259-320), with `time.time()`
passed in as `now`. Returns the updated state, the exhaust PWM, and the
driver string. Python list indexing `EXPLORE_EXHAUST_LEVELS[idx]` is
modelled with `getD _ 0`; the index stays within bounds in every state the
controller reaches. -/
def explore_exhaust (s : FanState) (temps utils powers : List Int)
    (now : Rat) : FanState × Int × String :=
  let max_temp := listMax temps
  let max_util := listMax utils
  let max_power := listMax powers
  if max_temp ≥ EXPLORE_TEMP_CEILING then
    ({ s with explore_exhaust_idx := EXPLORE_EXHAUST_LEVELS.length - 1,
              explore_start_time := none }, MAX_PWM, "explore-retreat")
  else
    let current_load_bucket := max_power.fdiv 50
    let s1 :=
      if s.explore_load_bucket ≠ none ∧ s.explore_load_bucket ≠ some current_load_bucket
      then { s with explore_exhaust_idx := EXPLORE_EXHAUST_LEVELS.length - 1,
                    explore_start_time := none }
      else s
    let s2 := { s1 with explore_load_bucket := some current_load_bucket }
    if max_util < 50 then (s2, EXPLORE_EXHAUST_LEVELS.getLastD 0, "explore-idle")
    else
      let s3 := if s2.explore_start_time = none
                then { s2 with explore_start_time := some now } else s2
      match s3.explore_start_time with
      | none => (s3, EXPLORE_EXHAUST_LEVELS.getD s3.explore_exhaust_idx 0, "explore")
      | some t0 =>
        if now - t0 ≥ EXPLORE_HOLD_TIME then
          let s4 := if s3.explore_exhaust_idx > 0
                    then { s3 with explore_exhaust_idx := s3.explore_exhaust_idx - 1,
                                   explore_start_time := some now }
                    else { s3 with explore_exhaust_idx := EXPLORE_EXHAUST_LEVELS.length - 1,
                                   explore_start_time := some now }
          (s4, EXPLORE_EXHAUST_LEVELS.getD s4.explore_exhaust_idx 0, "explore")
        else (s3, EXPLORE_EXHAUST_LEVELS.getD s3.explore_exhaust_idx 0, "explore")

/-- `FanController.set_pwm` (lines 166-179): clamp intake to
`[MIN_PWM, MAX_PWM]`; exhaust defaults to `max(exhaust_min_pwm, intake)`
when not given, else is clamped likewise; both are written and stored.
Returns (new state, written intake, written exhaust). -/
def set_pwm (s : FanState) (intake_pwm : Int) (exhaust_pwm : Option Int) :
    FanState × Int × Int :=
  let i := max MIN_PWM (min MAX_PWM intake_pwm)
  let e := match exhaust_pwm with
           | none => max exhaust_min_pwm i
           | some ep => max MIN_PWM (min MAX_PWM ep)
  ({ s with current_intake_pwm := i, current_exhaust_pwm := e }, i, e)

/-- `FanController.update_history` (lines 338-342). -/
def update_history (s : FanState) (max_temp max_util pwm : Int) : FanState :=
  { s with temp_history := dequeAppend s.temp_history max_temp,
           util_history := dequeAppend s.util_history max_util,
           pwm_history := dequeAppend s.pwm_history pwm }

/-- Outcome of one iteration of the control loop: resulting controller
state, the pair (intake, exhaust) written to the PWM interfaces (`none`
when the tick was skipped), and the poll interval for the next tick. -/
structure TickResult where
  state : FanState
  written : Option (Int × Int)
  next_interval : Rat
  deriving Repr, DecidableEq

/-- One iteration of `FanController.run`'s steady-state loop
(lines 392-431). `reading = none` models `get_gpu_stats` raising (caught by
the `except` at the loop boundary); a reading with fewer than 2 temps or
utils hits the explicit skip at lines 396-399. Otherwise: decide, rate
limit (bypassed on emergency), optionally override exhaust with the
exploration policy, write both fans, append to history, and compute the
next adaptive poll interval. -/
def tick (explore_mode : Bool) (s : FanState)
    (reading : Option (List Int × List Int × List Int))
    (poll_interval : Rat) (now : Rat) : TickResult :=
  match reading with
  | none => ⟨s, none, poll_interval⟩
  | some r =>
    let temps := r.1
    let utils := r.2.1
    let powers := r.2.2
    if temps.length < 2 ∨ utils.length < 2 then ⟨s, none, poll_interval⟩
    else
      let fo := find_optimal_pwm s temps
      let emergency : Bool := fo.2.2 == "emergency"
      let intake_pwm := apply_rate_limit fo.1 s.current_intake_pwm poll_interval emergency
      let exhaust_rl := apply_rate_limit fo.2.1 s.current_exhaust_pwm poll_interval emergency
      let ex := if explore_mode then explore_exhaust s temps utils powers now
                else (s, exhaust_rl, fo.2.2)
      let sw := set_pwm ex.1 intake_pwm (some ex.2.1)
      let s2 := update_history sw.1 (listMax temps) (listMax utils) intake_pwm
      ⟨s2, some (sw.2.1, sw.2.2), get_poll_interval (listMax utils) (listMax temps)⟩

/-!  Arithmetic facts about truncated division used by the curve lemmas. -/

/-- Truncated division by a positive integer is monotone in the dividend. -/
theorem tdiv_mono {a b d : Int} (hd : 0 < d) (h : a ≤ b) : a.tdiv d ≤ b.tdiv d := by
  rcases le_or_lt 0 a with ha | ha
  · have hb : 0 ≤ b := le_trans ha h
    rw [Int.tdiv_eq_ediv ha (le_of_lt hd), Int.tdiv_eq_ediv hb (le_of_lt hd)]
    exact Int.ediv_le_ediv hd h
  · rcases le_or_lt 0 b with hb | hb
    · have h1 : a.tdiv d ≤ 0 := by
        have h2 : (0 : Int) ≤ (-a).tdiv d := Int.tdiv_nonneg (by omega) (by omega)
        rw [Int.neg_tdiv] at h2
        omega
      have h2 : 0 ≤ b.tdiv d := Int.tdiv_nonneg hb (by omega)
      omega
    · have key : (-b).tdiv d ≤ (-a).tdiv d := by
        rw [Int.tdiv_eq_ediv (by omega) (le_of_lt hd),
            Int.tdiv_eq_ediv (by omega) (le_of_lt hd)]
        exact Int.ediv_le_ediv hd (by omega)
      rw [Int.neg_tdiv, Int.neg_tdiv] at key
      omega

/-- A lower bound on a truncated quotient from a lower bound on the dividend. -/
theorem le_tdiv_of_mul_le {k n d : Int} (hd : 0 < d) (h : k * d ≤ n) :
    k ≤ n.tdiv d := by
  have h2 := tdiv_mono hd h
  rwa [Int.mul_tdiv_cancel k (by omega)] at h2

/-- An upper bound on a truncated quotient from an upper bound on the dividend. -/
theorem tdiv_le_of_le_mul {k n d : Int} (hd : 0 < d) (h : n ≤ k * d) :
    n.tdiv d ≤ k := by
  have h2 := tdiv_mono hd h
  rwa [Int.mul_tdiv_cancel k (by omega)] at h2

/-!  Pointwise facts about one interpolation segment. -/

/-- Interpolation at the left endpoint of a non-degenerate segment is exact. -/
theorem interpSeg_left {p q : Int × Int} (h : p.1 ≠ q.1) :
    interpSeg p q p.1 = p.2 := by
  unfold interpSeg
  rw [if_neg (by omega)]
  have h2 : p.2 * (q.1 - p.1) + (p.1 - p.1) * (q.2 - p.2) = p.2 * (q.1 - p.1) := by ring
  rw [h2]
  exact Int.mul_tdiv_cancel _ (by omega)

/-- Interpolation at the right endpoint of a non-degenerate segment is exact. -/
theorem interpSeg_right {p q : Int × Int} (h : p.1 ≠ q.1) :
    interpSeg p q q.1 = q.2 := by
  unfold interpSeg
  rw [if_neg (by omega)]
  have h2 : p.2 * (q.1 - p.1) + (q.1 - p.1) * (q.2 - p.2) = q.2 * (q.1 - p.1) := by ring
  rw [h2]
  exact Int.mul_tdiv_cancel _ (by omega)

/-- On a rising segment the interpolant is at least the left PWM. -/
theorem interpSeg_ge {p q : Int × Int} (hx : p.1 < q.1) (hp : p.2 ≤ q.2)
    {x : Int} (h1 : p.1 ≤ x) : p.2 ≤ interpSeg p q x := by
  unfold interpSeg
  rw [if_neg (by omega)]
  apply le_tdiv_of_mul_le (by omega)
  have hprod : 0 ≤ (x - p.1) * (q.2 - p.2) := mul_nonneg (by omega) (by omega)
  linarith

/-- On a rising segment the interpolant is at most the right PWM. -/
theorem interpSeg_le {p q : Int × Int} (hx : p.1 < q.1) (hp : p.2 ≤ q.2)
    {x : Int} (h2 : x ≤ q.1) : interpSeg p q x ≤ q.2 := by
  unfold interpSeg
  rw [if_neg (by omega)]
  apply tdiv_le_of_le_mul (by omega)
  have hprod : (x - p.1) * (q.2 - p.2) ≤ (q.1 - p.1) * (q.2 - p.2) :=
    mul_le_mul_of_nonneg_right (by omega) (by omega)
  nlinarith

/-- On a rising segment the interpolant is monotone in the input. -/
theorem interpSeg_mono {p q : Int × Int} (hx : p.1 < q.1) (hp : p.2 ≤ q.2)
    {x y : Int} (hxy : x ≤ y) : interpSeg p q x ≤ interpSeg p q y := by
  unfold interpSeg
  rw [if_neg (by omega), if_neg (by omega)]
  apply tdiv_mono (by omega)
  have hprod : (x - p.1) * (q.2 - p.2) ≤ (y - p.1) * (q.2 - p.2) :=
    mul_le_mul_of_nonneg_right (by omega) (by omega)
  linarith

/-!  A structurally recursive restatement of the curve evaluator, used as the
induction vehicle for the curve lemmas, together with the proof that it
agrees with `get_temp_based_pwm` on sorted curves. -/

/-- Recursive form of the evaluator: clamp at the head, interpolate on the
first segment containing `x`, else recurse on the tail. -/
def evalRec : List (Int × Int) → Int → Int
  | [], _ => 0
  | [p], _ => p.2
  | p :: q :: rest, x =>
    if x ≤ p.1 then p.2
    else if x ≤ q.1 then interpSeg p q x
    else evalRec (q :: rest) x

theorem sortedX_cons {p q : Int × Int} {rest : List (Int × Int)} :
    sortedX (p :: q :: rest) = true ↔ p.1 < q.1 ∧ sortedX (q :: rest) = true := by
  simp [sortedX]

theorem pwmMono_cons {p q : Int × Int} {rest : List (Int × Int)} :
    pwmMono (p :: q :: rest) = true ↔ p.2 ≤ q.2 ∧ pwmMono (q :: rest) = true := by
  simp [pwmMono]

theorem sortedX_tail {p : Int × Int} {l : List (Int × Int)}
    (h : sortedX (p :: l) = true) : sortedX l = true := by
  cases l with
  | nil => rfl
  | cons q t => exact (sortedX_cons.mp h).2

theorem pwmMono_tail {p : Int × Int} {l : List (Int × Int)}
    (h : pwmMono (p :: l) = true) : pwmMono l = true := by
  cases l with
  | nil => rfl
  | cons q t => exact (pwmMono_cons.mp h).2

/-- In a sorted curve the head's x lies strictly below all later x. -/
theorem sortedX_head_lt_mem {c : Int × Int} {l : List (Int × Int)}
    (h : sortedX (c :: l) = true) : ∀ e ∈ l, c.1 < e.1 := by
  induction l generalizing c with
  | nil => intro e he; cases he
  | cons r t ih =>
    intro e he
    obtain ⟨hcr, hrt⟩ := sortedX_cons.mp h
    rcases List.mem_cons.mp he with rfl | het
    · exact hcr
    · exact lt_trans hcr (ih hrt e het)

/-- Sortedness passes to any suffix. -/
theorem sortedX_append_right {l1 l2 : List (Int × Int)}
    (h : sortedX (l1 ++ l2) = true) : sortedX l2 = true := by
  induction l1 with
  | nil => exact h
  | cons a t ih => exact ih (sortedX_tail h)

theorem getLastD_cons_cons {α : Type} (a b : α) (l : List α) (d : α) :
    (a :: b :: l).getLastD d = (b :: l).getLastD d := by
  simp only [List.getLastD_cons]

/-- In a sorted curve the head's x is at most the last point's x. -/
theorem sortedX_head_le_getLastD {q : Int × Int} {l : List (Int × Int)}
    (h : sortedX (q :: l) = true) (d : Int × Int) :
    q.1 ≤ ((q :: l).getLastD d).1 := by
  induction l generalizing q with
  | nil => simp [List.getLastD]
  | cons r t ih =>
    obtain ⟨hqr, hrt⟩ := sortedX_cons.mp h
    rw [getLastD_cons_cons]
    exact le_of_lt (lt_of_lt_of_le hqr (ih hrt))

/-- In a non-decreasing curve the head's PWM is at most the last point's PWM. -/
theorem pwmMono_head_le_getLastD {q : Int × Int} {l : List (Int × Int)}
    (h : pwmMono (q :: l) = true) (d : Int × Int) :
    q.2 ≤ ((q :: l).getLastD d).2 := by
  induction l generalizing q with
  | nil => simp [List.getLastD]
  | cons r t ih =>
    obtain ⟨hqr, hrt⟩ := pwmMono_cons.mp h
    rw [getLastD_cons_cons]
    exact le_trans hqr (ih hrt)

/-- `evalRec` clamps to the first point's PWM at or below the first x. -/
theorem evalRec_of_le_head {p0 : Int × Int} {rest : List (Int × Int)} {x : Int}
    (h : x ≤ p0.1) : evalRec (p0 :: rest) x = p0.2 := by
  cases rest with
  | nil => rfl
  | cons q t => simp only [evalRec]; rw [if_pos h]

/-- `evalRec` clamps to the last point's PWM at or above the last x. -/
theorem evalRec_of_getLastD_le {p0 : Int × Int} {rest : List (Int × Int)} {x : Int}
    (hs : sortedX (p0 :: rest) = true)
    (h : ((p0 :: rest).getLastD (0, 0)).1 ≤ x) :
    evalRec (p0 :: rest) x = ((p0 :: rest).getLastD (0, 0)).2 := by
  induction rest generalizing p0 with
  | nil => simp [evalRec, List.getLastD]
  | cons q t ih =>
    obtain ⟨hpq, hqt⟩ := sortedX_cons.mp hs
    rw [getLastD_cons_cons] at h ⊢
    have hlast := sortedX_head_le_getLastD hqt ((0, 0) : Int × Int)
    have hx1 : ¬ (x ≤ p0.1) := by omega
    simp only [evalRec]
    rw [if_neg hx1]
    by_cases hx2 : x ≤ q.1
    · have hxq : x = q.1 := le_antisymm hx2 (le_trans hlast h)
      cases t with
      | nil =>
        simp only [List.getLastD_cons, List.getLastD_nil] at h ⊢
        rw [if_pos hx2, hxq, interpSeg_right (by omega)]
      | cons r t' =>
        exfalso
        obtain ⟨hqr, hrt⟩ := sortedX_cons.mp hqt
        have hr := sortedX_head_le_getLastD hrt ((0, 0) : Int × Int)
        rw [getLastD_cons_cons] at h
        omega
    · rw [if_neg hx2]
      exact ih hqt h

/-- Above the first x, `evalRec` agrees with the first-matching-segment scan
(with the last PWM as fallback), mirroring the loop in the source. -/
theorem evalRec_of_head_lt {p0 : Int × Int} {rest : List (Int × Int)} {x : Int}
    (hs : sortedX (p0 :: rest) = true) (h : p0.1 < x) :
    evalRec (p0 :: rest) x =
      (findSegment (p0 :: rest) x).getD ((p0 :: rest).getLastD (0, 0)).2 := by
  induction rest generalizing p0 with
  | nil => simp [evalRec, findSegment, List.getLastD]
  | cons q t ih =>
    have hx1 : ¬ (x ≤ p0.1) := by omega
    obtain ⟨hpq, hqt⟩ := sortedX_cons.mp hs
    by_cases hx2 : x ≤ q.1
    · have hcond : p0.1 ≤ x ∧ x ≤ q.1 := ⟨le_of_lt h, hx2⟩
      simp only [evalRec, findSegment]
      rw [if_neg hx1, if_pos hx2, if_pos hcond, Option.getD_some]
    · have hcond : ¬ (p0.1 ≤ x ∧ x ≤ q.1) := fun hc => hx2 hc.2
      simp only [evalRec, findSegment]
      rw [if_neg hx1, if_neg hx2, if_neg hcond, getLastD_cons_cons]
      exact ih hqt (by omega)

/-- On sorted curves the source evaluator equals the recursive evaluator. -/
theorem get_temp_based_pwm_eq_evalRec {points : List (Int × Int)}
    (hs : sortedX points = true) (x : Int) :
    get_temp_based_pwm x points = evalRec points x := by
  cases points with
  | nil => rfl
  | cons p0 rest =>
    simp only [get_temp_based_pwm]
    by_cases h1 : x ≤ p0.1
    · rw [if_pos h1, evalRec_of_le_head h1]
    · rw [if_neg h1]
      by_cases h2 : x ≥ ((p0 :: rest).getLastD (0, 0)).1
      · rw [if_pos h2, evalRec_of_getLastD_le hs h2]
      · rw [if_neg h2, evalRec_of_head_lt hs (by omega)]
        cases hfs : findSegment (p0 :: rest) x <;> simp [hfs]

/-- Dropping the head does not change `evalRec` once `x` lies beyond the
second point. -/
theorem evalRec_step {a b : Int × Int} {l : List (Int × Int)} {x : Int}
    (hs : sortedX (a :: b :: l) = true) (h : b.1 < x) :
    evalRec (a :: b :: l) x = evalRec (b :: l) x := by
  obtain ⟨hab, _⟩ := sortedX_cons.mp hs
  simp only [evalRec]
  rw [if_neg (by omega), if_neg (by omega)]

/-- `evalRec` on the bracketing head segment is the segment interpolant. -/
theorem evalRec_seg {p q : Int × Int} {rest : List (Int × Int)} {x : Int}
    (hs : sortedX (p :: q :: rest) = true) (h1 : p.1 ≤ x) (h2 : x ≤ q.1) :
    evalRec (p :: q :: rest) x = interpSeg p q x := by
  obtain ⟨hpq, _⟩ := sortedX_cons.mp hs
  simp only [evalRec]
  by_cases hx : x ≤ p.1
  · rw [if_pos hx]
    have hxp : x = p.1 := le_antisymm hx h1
    rw [hxp, interpSeg_left (by omega)]
  · rw [if_neg hx, if_pos h2]

/-- `AdjPair l p q` holds when `p` and `q` occur adjacently (in that order)
somewhere in `l` — the "bracketing segment" relation of the spec. -/
inductive AdjPair : List (Int × Int) → (Int × Int) → (Int × Int) → Prop
  | head (p q : Int × Int) (rest : List (Int × Int)) : AdjPair (p :: q :: rest) p q
  | tail (a : Int × Int) {l : List (Int × Int)} {p q : Int × Int} :
      AdjPair l p q → AdjPair (a :: l) p q

/-- Every adjacent pair of a decomposed list is an `AdjPair`. -/
theorem adjPair_of_append {p q : Int × Int} {post : List (Int × Int)} :
    ∀ pre : List (Int × Int), AdjPair (pre ++ p :: q :: post) p q
  | [] => AdjPair.head p q post
  | a :: pre' => AdjPair.tail a (adjPair_of_append pre')

/-- The left point of an adjacent pair is a member of the list. -/
theorem AdjPair.left_mem {l : List (Int × Int)} {p q : Int × Int}
    (h : AdjPair l p q) : p ∈ l := by
  induction h with
  | head u v rest => exact List.mem_cons_self _ _
  | tail a h ih => exact List.mem_cons_of_mem a ih

/-- Any bracketing adjacent pair of a sorted curve determines `evalRec` by
its interpolant (the two candidate segments at a shared endpoint agree). -/
theorem evalRec_bracket {points : List (Int × Int)} {p q : Int × Int}
    {x : Int} (hadj : AdjPair points p q) :
    sortedX points = true → p.1 ≤ x → x ≤ q.1 →
    evalRec points x = interpSeg p q x := by
  induction hadj with
  | head u v rest =>
    intro hs h1 h2
    exact evalRec_seg hs h1 h2
  | tail a hinner ih =>
    intro hs h1 h2
    cases hinner with
    | head =>
      rename_i u v rest
      obtain ⟨hau, hrest⟩ := sortedX_cons.mp hs
      have huv := (sortedX_cons.mp hrest).1
      by_cases hux : u.1 < x
      · rw [evalRec_step hs hux]
        exact evalRec_seg hrest h1 h2
      · have hxu : x = u.1 := by omega
        simp only [evalRec]
        rw [if_neg (by omega), if_pos (by omega), hxu,
            interpSeg_right (by omega), interpSeg_left (by omega)]
    | tail c hinner' =>
      have hcl := sortedX_tail hs
      have hcx : c.1 < x :=
        lt_of_lt_of_le (sortedX_head_lt_mem hcl _ hinner'.left_mem) h1
      rw [evalRec_step hs hcx]
      exact ih hcl h1 h2

/-- `evalRec` is exact at every defined curve point. -/
theorem evalRec_point {points : List (Int × Int)} (hs : sortedX points = true)
    {pt : Int × Int} (hmem : pt ∈ points) : evalRec points pt.1 = pt.2 := by
  induction points with
  | nil => cases hmem
  | cons p rest ih =>
    rcases List.mem_cons.mp hmem with rfl | hmem'
    · exact evalRec_of_le_head (le_refl _)
    · cases rest with
      | nil => cases hmem'
      | cons q t =>
        obtain ⟨hpq, hqt⟩ := sortedX_cons.mp hs
        have hqle : q.1 ≤ pt.1 := by
          rcases List.mem_cons.mp hmem' with rfl | h'
          · exact le_refl _
          · exact le_of_lt (sortedX_head_lt_mem hqt pt h')
        simp only [evalRec]
        rw [if_neg (by omega)]
        by_cases hx2 : pt.1 ≤ q.1
        · have hq1 : pt.1 = q.1 := le_antisymm hx2 hqle
          have hptq : pt = q := by
            rcases List.mem_cons.mp hmem' with rfl | h'
            · rfl
            · exact absurd (sortedX_head_lt_mem hqt pt h') (by omega)
          rw [if_pos hx2, hq1, interpSeg_right (by omega), hptq]
        · rw [if_neg hx2]
          exact ih hqt hmem'

/-- On a validated curve, `evalRec` never falls below the first PWM. -/
theorem evalRec_ge_head {p : Int × Int} {l : List (Int × Int)}
    (hs : sortedX (p :: l) = true) (hm : pwmMono (p :: l) = true) (x : Int) :
    p.2 ≤ evalRec (p :: l) x := by
  induction l generalizing p with
  | nil => exact le_refl _
  | cons q t ih =>
    obtain ⟨hpq, hqt⟩ := sortedX_cons.mp hs
    obtain ⟨hpq2, hqt2⟩ := pwmMono_cons.mp hm
    simp only [evalRec]
    by_cases h1 : x ≤ p.1
    · rw [if_pos h1]
    · rw [if_neg h1]
      by_cases h2 : x ≤ q.1
      · rw [if_pos h2]
        exact interpSeg_ge hpq hpq2 (by omega)
      · rw [if_neg h2]
        exact le_trans hpq2 (ih hqt hqt2)

/-- On a validated curve, `evalRec` never exceeds the last PWM. -/
theorem evalRec_le_getLastD {p : Int × Int} {l : List (Int × Int)}
    (hs : sortedX (p :: l) = true) (hm : pwmMono (p :: l) = true) (x : Int) :
    evalRec (p :: l) x ≤ ((p :: l).getLastD (0, 0)).2 := by
  induction l generalizing p with
  | nil => simp [evalRec, List.getLastD]
  | cons q t ih =>
    obtain ⟨hpq, hqt⟩ := sortedX_cons.mp hs
    obtain ⟨hpq2, hqt2⟩ := pwmMono_cons.mp hm
    rw [getLastD_cons_cons]
    have hlast := pwmMono_head_le_getLastD hqt2 ((0, 0) : Int × Int)
    simp only [evalRec]
    by_cases h1 : x ≤ p.1
    · rw [if_pos h1]
      exact le_trans hpq2 hlast
    · rw [if_neg h1]
      by_cases h2 : x ≤ q.1
      · rw [if_pos h2]
        exact le_trans (interpSeg_le hpq hpq2 h2) hlast
      · rw [if_neg h2]
        exact ih hqt hqt2

/-- `evalRec` is monotone in the driving value on validated curves. -/
theorem evalRec_mono {points : List (Int × Int)}
    (hs : sortedX points = true) (hm : pwmMono points = true)
    {x y : Int} (hxy : x ≤ y) : evalRec points x ≤ evalRec points y := by
  induction points with
  | nil => exact le_refl _
  | cons p rest ih =>
    cases rest with
    | nil => exact le_refl _
    | cons q t =>
      obtain ⟨hpq, hqt⟩ := sortedX_cons.mp hs
      obtain ⟨hpq2, hqt2⟩ := pwmMono_cons.mp hm
      by_cases hy1 : y ≤ p.1
      · have hx1 : x ≤ p.1 := le_trans hxy hy1
        simp only [evalRec]
        rw [if_pos hx1, if_pos hy1]
      · by_cases hx1 : x ≤ p.1
        · have hgey := evalRec_ge_head hs hm y
          calc evalRec (p :: q :: t) x = p.2 := evalRec_of_le_head hx1
            _ ≤ evalRec (p :: q :: t) y := hgey
        · by_cases hy2 : y ≤ q.1
          · have hx2 : x ≤ q.1 := le_trans hxy hy2
            simp only [evalRec]
            rw [if_neg hx1, if_pos hx2, if_neg hy1, if_pos hy2]
            exact interpSeg_mono hpq hpq2 hxy
          · by_cases hx2 : x ≤ q.1
            · have hb1 : interpSeg p q x ≤ q.2 := interpSeg_le hpq hpq2 hx2
              have hb2 : q.2 ≤ evalRec (q :: t) y := evalRec_ge_head hqt hqt2 y
              simp only [evalRec]
              rw [if_neg hx1, if_pos hx2, if_neg hy1, if_neg hy2]
              exact le_trans hb1 hb2
            · simp only [evalRec]
              rw [if_neg hx1, if_neg hx2, if_neg hy1, if_neg hy2]
              exact ih hqt hqt2

/-- Dropping a strict prefix does not change the last element. -/
theorem getLastD_drop {l : List Int} {k : Nat} (h : k < l.length) (d : Int) :
    (l.drop k).getLastD d = l.getLastD d := by
  induction l generalizing k with
  | nil => simp at h
  | cons a t ih =>
    cases k with
    | zero => rfl
    | succ k' =>
      simp only [List.drop_succ_cons]
      have hk : k' < t.length := by simpa using h
      rw [ih hk]
      cases t with
      | nil => simp at hk
      | cons b t' => rw [getLastD_cons_cons]

/-- C2: curve-evaluation contract. For every non-empty curve with strictly
increasing x values and every input x: at or below the first x the first
point's PWM is returned; at or above the last x the last point's PWM;
every bracketing adjacent segment (x1,p1)-(x2,p2) yields the truncated
linear interpolant `interpSeg p q x` = int-truncation of
p1 + (x-x1)/(x2-x1)*(p2-p1); consequently every defined point evaluates
to its own PWM exactly. -/
theorem curve_eval_contract (points : List (Int × Int)) (x : Int)
    (hne : points ≠ []) (hs : sortedX points = true) :
    (x ≤ (points.headD (0, 0)).1 →
       get_temp_based_pwm x points = (points.headD (0, 0)).2) ∧
    ((points.getLastD (0, 0)).1 ≤ x →
       get_temp_based_pwm x points = (points.getLastD (0, 0)).2) ∧
    (∀ (pre post : List (Int × Int)) (p q : Int × Int),
       points = pre ++ p :: q :: post → p.1 ≤ x → x ≤ q.1 →
       get_temp_based_pwm x points = interpSeg p q x) ∧
    (∀ pt ∈ points, get_temp_based_pwm pt.1 points = pt.2) := by
  refine ⟨?_, ?_, ?_, ?_⟩
  · intro h
    cases points with
    | nil => exact absurd rfl hne
    | cons p0 rest =>
      simp only [List.headD_cons] at h ⊢
      simp only [get_temp_based_pwm]
      rw [if_pos h]
  · intro h
    cases points with
    | nil => exact absurd rfl hne
    | cons p0 rest =>
      rw [get_temp_based_pwm_eq_evalRec hs, evalRec_of_getLastD_le hs h]
  · intro pre post p q hsplit h1 h2
    rw [get_temp_based_pwm_eq_evalRec hs]
    exact evalRec_bracket (by rw [hsplit]; exact adjPair_of_append pre) hs h1 h2
  · intro pt hmem
    rw [get_temp_based_pwm_eq_evalRec hs]
    exact evalRec_point hs hmem

/-- Witness for the curve contract: on the intake curve at 70 degrees,
between (65,170) and (75,210), the evaluator returns the interpolant 190. -/
theorem curve_eval_contract_witness :
    get_temp_based_pwm 70 TEMP_INTAKE_POINTS = interpSeg (65, 170) (75, 210) 70 ∧
    get_temp_based_pwm 70 TEMP_INTAKE_POINTS = 190 :=
  ⟨(curve_eval_contract TEMP_INTAKE_POINTS 70 (by decide) (by decide)).2.2.1
      [(50, 110)] [(82, 230), (90, 255)] (65, 170) (75, 210) rfl (by decide) (by decide),
   by decide⟩

/-- C3: curve monotonicity — on every validated curve (strictly increasing
x, non-decreasing PWM), x1 < x2 implies evaluate(x1) <= evaluate(x2). -/
theorem curve_monotone (points : List (Int × Int)) (x1 x2 : Int)
    (hne : points ≠ []) (hs : sortedX points = true)
    (hm : pwmMono points = true) (h : x1 < x2) :
    get_temp_based_pwm x1 points ≤ get_temp_based_pwm x2 points := by
  rw [get_temp_based_pwm_eq_evalRec hs, get_temp_based_pwm_eq_evalRec hs]
  exact evalRec_mono hs hm (le_of_lt h)

/-- Witness for curve monotonicity on the exhaust curve at 63 < 77. -/
theorem curve_monotone_witness :
    get_temp_based_pwm 63 TEMP_EXHAUST_POINTS ≤
      get_temp_based_pwm 77 TEMP_EXHAUST_POINTS :=
  curve_monotone TEMP_EXHAUST_POINTS 63 77 (by decide) (by decide) (by decide)
    (by decide)

/-- `ratTrunc` of an integer rational is that integer. -/
theorem ratTrunc_intCast (n : Int) : ratTrunc ((n : Int) : Rat) = n := by
  simp [ratTrunc, Rat.num_intCast, Rat.den_intCast]

/-- C4: rate-limiter contract — emergency passes the target through;
increases are instantaneous; decreases are floored at
`max(target, current - cap)` with `cap = max(5, int(10 * tick_interval))`;
and with current 230, target 110, interval 1.0 the result is 220. -/
theorem rate_limit_contract (target current : Int) (t : Rat) (em : Bool)
    (ht : 0 < t) :
    (em = true → apply_rate_limit target current t em = target) ∧
    (em = false → current ≤ target → apply_rate_limit target current t em = target) ∧
    (em = false → target < current →
       apply_rate_limit target current t em =
         max target (current - max 5 (ratTrunc ((MAX_PWM_CHANGE_PER_SEC : Rat) * t)))) ∧
    apply_rate_limit 110 230 1 false = 220 := by
  refine ⟨?_, ?_, ?_, ?_⟩
  · intro h
    simp only [apply_rate_limit]
    rw [if_pos h]
  · intro h1 h2
    simp only [apply_rate_limit]
    rw [if_neg (by simp [h1]), if_pos h2]
  · intro h1 h2
    simp only [apply_rate_limit]
    rw [if_neg (by simp [h1]), if_neg (by omega)]
    split <;> omega
  · have hcap : (MAX_PWM_CHANGE_PER_SEC : Rat) * 1 = ((10 : Int) : Rat) := by
      norm_num [MAX_PWM_CHANGE_PER_SEC]
    simp only [apply_rate_limit, hcap, ratTrunc_intCast]
    rw [if_neg (by simp), if_neg (by omega), if_pos (by omega)]
    omega

/-- Witness for the rate-limiter scenario: 230 down toward 110 at 1 s. -/
theorem rate_limit_contract_witness :
    apply_rate_limit 110 230 1 false = 220 :=
  (rate_limit_contract 110 230 1 false (by norm_num)).2.2.2

/-- C5: trend detection and boost — trend is 0 with fewer than 3 history
samples; with at least 3 it is (newest - oldest)/2 over the last 3; and
when the trend exceeds 5 (and no emergency applies) each actuator's target
is its current PWM plus min(30, int(trend * 5)), clamped to MAX_PWM. -/
theorem trend_contract :
    (∀ h : List Int, h.length < 3 → get_temp_trend h = 0) ∧
    (∀ h : List Int, 3 ≤ h.length →
       get_temp_trend h =
         ((h.getLastD 0 - (h.drop (h.length - 3)).headD 0 : Int) : Rat) / 2) ∧
    (∀ (s : FanState) (temps : List Int), listMax temps < EMERGENCY_TEMP →
       5 < get_temp_trend s.temp_history →
       find_optimal_pwm s temps =
         (min MAX_PWM (s.current_intake_pwm +
            min 30 (ratTrunc (get_temp_trend s.temp_history * 5))),
          min MAX_PWM (s.current_exhaust_pwm +
            min 30 (ratTrunc (get_temp_trend s.temp_history * 5))), "trend")) := by
  refine ⟨?_, ?_, ?_⟩
  · intro h hlen
    simp only [get_temp_trend]
    rw [if_pos hlen]
  · intro h hlen
    simp only [get_temp_trend]
    rw [if_neg (by omega)]
    have hdl : h.length - 3 < h.length := by omega
    have hlen3 : (h.drop (h.length - 3)).length = 3 := by
      rw [List.length_drop]
      omega
    rw [getLastD_drop hdl 0, hlen3]
    norm_num
  · intro s temps htemp htrend
    simp only [find_optimal_pwm]
    rw [if_neg (by omega), if_pos htrend]

/-- Concrete history for the trend-boost witness. -/
def trendWitnessState : FanState :=
  { initState with
    temp_history := [70, 77, 84],
    current_intake_pwm := 150,
    current_exhaust_pwm := 140 }

/-- Witness for the trend contract: history rising 70,77,84 gives trend 7;
targets become 150+30 and 140+30 under the boost. -/
theorem trend_contract_witness :
    find_optimal_pwm trendWitnessState [60, 62] = (180, 170, "trend") := by
  have htr : get_temp_trend trendWitnessState.temp_history = ((14 : Int) : Rat) / 2 := by
    have h2 := trend_contract.2.1 trendWitnessState.temp_history (by decide)
    rw [h2]
    norm_num [trendWitnessState, initState]
  have htr7 : get_temp_trend trendWitnessState.temp_history = 7 := by
    rw [htr]; norm_num
  have h := trend_contract.2.2 trendWitnessState [60, 62] (by decide)
    (by rw [htr7]; norm_num)
  rw [h, htr7]
  have h35 : (7 : Rat) * 5 = ((35 : Int) : Rat) := by norm_num
  rw [h35, ratTrunc_intCast]
  decide

/-- C6: tick-skip atomicity — a failed sensor read, or one with fewer than
two temperature or utilization readings, performs no PWM write, leaves the
whole controller state (current PWMs and all history buffers) unchanged,
and keeps the same poll interval for the next tick. -/
theorem tick_skip_atomic (em : Bool) (s : FanState) (dt now : Rat) :
    tick em s none dt now = ⟨s, none, dt⟩ ∧
    ∀ temps utils powers : List Int, temps.length < 2 ∨ utils.length < 2 →
      tick em s (some (temps, utils, powers)) dt now = ⟨s, none, dt⟩ := by
  refine ⟨rfl, ?_⟩
  intro temps utils powers h
  simp only [tick]
  rw [if_pos h]

/-- Witness for tick-skip: a single temperature reading skips the tick. -/
theorem tick_skip_atomic_witness :
    tick false initState (some ([75], [40, 50], [100, 90])) POLL_INTERVAL_NORMAL 0 =
      ⟨initState, none, POLL_INTERVAL_NORMAL⟩ :=
  (tick_skip_atomic false initState POLL_INTERVAL_NORMAL 0).2 [75] [40, 50] [100, 90]
    (Or.inl (by decide))

/-- Shared helper: the safety branch of `explore_exhaust` at or above the
temperature ceiling retreats to `MAX_PWM` and resets the sweep. -/
theorem explore_exhaust_of_ceiling_le {s : FanState}
    {temps utils powers : List Int} {now : Rat}
    (h : EXPLORE_TEMP_CEILING ≤ listMax temps) :
    explore_exhaust s temps utils powers now =
      ({ s with explore_exhaust_idx := EXPLORE_EXHAUST_LEVELS.length - 1,
                explore_start_time := none }, MAX_PWM, "explore-retreat") := by
  simp only [explore_exhaust]
  rw [if_pos h]

/-- C7: exploration retreat — whenever the maximum temperature reaches the
exploration ceiling (85), the policy returns MAX_PWM for the exhaust,
resets the sweep index to the top candidate and clears the dwell timer. -/
theorem explore_retreat (s : FanState) (temps utils powers : List Int)
    (now : Rat) (h : EXPLORE_TEMP_CEILING ≤ listMax temps) :
    explore_exhaust s temps utils powers now =
      ({ s with explore_exhaust_idx := EXPLORE_EXHAUST_LEVELS.length - 1,
                explore_start_time := none }, MAX_PWM, "explore-retreat") ∧
    EXPLORE_TEMP_CEILING = 85 ∧ MAX_PWM = 255 :=
  ⟨explore_exhaust_of_ceiling_le h, rfl, rfl⟩

/-- Witness for the exploration retreat at temperatures [86, 60]. -/
theorem explore_retreat_witness :
    explore_exhaust initState [86, 60] [100, 100] [200, 200] 0 =
      ({ initState with explore_exhaust_idx := 7, explore_start_time := none },
        255, "explore-retreat") :=
  (explore_retreat initState [86, 60] [100, 100] [200, 200] 0 (by decide)).1

/-- C8: PWM clamp invariant — the initial actuator state and, for every
requested pair of targets (in range or not), the values written and stored
by `set_pwm` lie within [MIN_PWM, MAX_PWM] = [110, 255]. -/
theorem pwm_clamp_invariant :
    (MIN_PWM ≤ initState.current_intake_pwm ∧ initState.current_intake_pwm ≤ MAX_PWM ∧
     MIN_PWM ≤ initState.current_exhaust_pwm ∧ initState.current_exhaust_pwm ≤ MAX_PWM) ∧
    ∀ (s : FanState) (ip : Int) (ep : Option Int),
      MIN_PWM ≤ (set_pwm s ip ep).2.1 ∧ (set_pwm s ip ep).2.1 ≤ MAX_PWM ∧
      MIN_PWM ≤ (set_pwm s ip ep).2.2 ∧ (set_pwm s ip ep).2.2 ≤ MAX_PWM ∧
      (set_pwm s ip ep).1.current_intake_pwm = (set_pwm s ip ep).2.1 ∧
      (set_pwm s ip ep).1.current_exhaust_pwm = (set_pwm s ip ep).2.2 := by
  refine ⟨by decide, ?_⟩
  intro s ip ep
  cases ep with
  | none =>
    simp only [set_pwm, MIN_PWM, MAX_PWM, exhaust_min_pwm]
    have h2 : max (110 : Int) (min 255 ip) ≤ 255 :=
      max_le (by norm_num) (min_le_left _ _)
    refine ⟨le_max_left _ _, h2, le_trans (by norm_num) (le_max_left _ _),
      max_le (by norm_num) h2, ?_, ?_⟩ <;> first | rfl | trivial
  | some e =>
    simp only [set_pwm, MIN_PWM, MAX_PWM, exhaust_min_pwm]
    refine ⟨le_max_left _ _, max_le (by norm_num) (min_le_left _ _),
      le_max_left _ _, max_le (by norm_num) (min_le_left _ _), ?_, ?_⟩ <;>
      first | rfl | trivial

/-- C10: exploration idle — below 50% utilization (and under the ceiling)
the policy returns the LAST candidate of EXPLORE_EXHAUST_LEVELS, which is
255 (the highest PWM, not a quiet level), with driver "explore-idle", and
never advances the sweep index downward: it is unchanged, or reset to the
top by the load-bucket check that precedes the idle test. -/
theorem explore_idle (s : FanState) (temps utils powers : List Int) (now : Rat)
    (hu : listMax utils < 50) (ht : listMax temps < EXPLORE_TEMP_CEILING) :
    (explore_exhaust s temps utils powers now).2.1 =
      EXPLORE_EXHAUST_LEVELS.getLastD 0 ∧
    EXPLORE_EXHAUST_LEVELS.getLastD 0 = 255 ∧
    (explore_exhaust s temps utils powers now).2.2 = "explore-idle" ∧
    ((explore_exhaust s temps utils powers now).1.explore_exhaust_idx =
        s.explore_exhaust_idx ∨
     (explore_exhaust s temps utils powers now).1.explore_exhaust_idx =
        EXPLORE_EXHAUST_LEVELS.length - 1) := by
  simp only [explore_exhaust]
  rw [if_neg (by omega)]
  by_cases hb : s.explore_load_bucket ≠ none ∧
      s.explore_load_bucket ≠ some ((listMax powers).fdiv 50)
  · rw [if_pos hb, if_pos hu]
    exact ⟨rfl, rfl, rfl, Or.inr rfl⟩
  · rw [if_neg hb, if_pos hu]
    exact ⟨rfl, rfl, rfl, Or.inl rfl⟩

/-- Witness for exploration idle: 10% utilization, cool temperatures. -/
theorem explore_idle_witness :
    (explore_exhaust initState [60, 60] [10, 10] [200, 200] 0).2.1 = 255 := by
  have h := explore_idle initState [60, 60] [10, 10] [200, 200] 0 (by decide) (by decide)
  rw [h.1]
  exact h.2.1

/-- Shared helper: mid-dwell step of `explore_exhaust` (no retreat, same
load bucket, loaded, timer running, dwell not yet elapsed) keeps the sweep
index and returns the current candidate level. -/
theorem explore_exhaust_dwell {s : FanState} {temps utils powers : List Int}
    {now t0 : Rat} (h1 : listMax temps < EXPLORE_TEMP_CEILING)
    (h2 : ¬ (s.explore_load_bucket ≠ none ∧
             s.explore_load_bucket ≠ some ((listMax powers).fdiv 50)))
    (h3 : ¬ (listMax utils < 50))
    (h4 : s.explore_start_time = some t0)
    (h5 : ¬ (now - t0 ≥ EXPLORE_HOLD_TIME)) :
    explore_exhaust s temps utils powers now =
      ({ s with explore_load_bucket := some ((listMax powers).fdiv 50) },
        EXPLORE_EXHAUST_LEVELS.getD s.explore_exhaust_idx 0, "explore") := by
  simp only [explore_exhaust]
  rw [if_neg (by omega), if_neg h2, if_neg h3, if_neg (by simp [h4])]
  simp only [h4]
  rw [if_neg h5]

/-- Concrete state for the exploration-override witness: mid-dwell at the
lowest candidate level with the exhaust currently at maximum. -/
def exploreWitnessState : FanState :=
  { initState with
    current_exhaust_pwm := 255,
    explore_exhaust_idx := 0,
    explore_start_time := some 0,
    explore_load_bucket := some 4 }

/-- C9: in exploration mode the exhaust value written on every successful
tick is exactly the exploration policy's value (clamped by `set_pwm`),
replacing the rate-limited decision-engine value; consequently
exploration-mode exhaust decreases are not bounded by the rate limiter's
per-tick cap — witnessed by a tick that drops the exhaust from 255 to 110
while the rate cap at the normal poll interval is only 5. -/
theorem explore_overrides_exhaust :
    (∀ (s : FanState) (temps utils powers : List Int) (dt now : Rat),
       2 ≤ temps.length → 2 ≤ utils.length →
       (tick true s (some (temps, utils, powers)) dt now).written.map Prod.snd =
         some (max MIN_PWM
           (min MAX_PWM (explore_exhaust s temps utils powers now).2.1))) ∧
    (tick true exploreWitnessState (some ([60, 60], [100, 100], [200, 200]))
        POLL_INTERVAL_NORMAL 0).written.map Prod.snd = some 110 ∧
    exploreWitnessState.current_exhaust_pwm - 110 >
      max 5 (ratTrunc ((MAX_PWM_CHANGE_PER_SEC : Rat) * POLL_INTERVAL_NORMAL)) := by
  have hmain : ∀ (s : FanState) (temps utils powers : List Int) (dt now : Rat),
      ¬ (temps.length < 2 ∨ utils.length < 2) →
      (tick true s (some (temps, utils, powers)) dt now).written.map Prod.snd =
        some (max MIN_PWM
          (min MAX_PWM (explore_exhaust s temps utils powers now).2.1)) := by
    intro s temps utils powers dt now hguard
    simp only [tick]
    rw [if_neg hguard]
    simp [set_pwm]
  refine ⟨fun s temps utils powers dt now h2t h2u =>
      hmain s temps utils powers dt now (by omega), ?_, ?_⟩
  · rw [hmain _ _ _ _ _ _ (by decide)]
    have hexp := @explore_exhaust_dwell exploreWitnessState
      [60, 60] [100, 100] [200, 200] 0 0
      (by decide) (by decide) (by decide) rfl
      (by norm_num [EXPLORE_HOLD_TIME])
    rw [hexp]
    decide
  · have hc : (MAX_PWM_CHANGE_PER_SEC : Rat) * POLL_INTERVAL_NORMAL =
        ((1 : Int) : Rat) := by
      norm_num [MAX_PWM_CHANGE_PER_SEC, POLL_INTERVAL_NORMAL]
    rw [hc, ratTrunc_intCast]
    decide

/-- C1: emergency override — in any tick whose maximum temperature is at
or above EMERGENCY_TEMP (90), both actuators are commanded MAX_PWM (255)
and the stored PWM state becomes 255/255, for every prior state, history,
utilization, power, poll interval, and in both normal and exploration
mode; the rate limiter passes the emergency target through unchanged, and
in exploration mode the retreat branch also yields MAX_PWM. -/
theorem emergency_override (em : Bool) (s : FanState)
    (temps utils powers : List Int) (dt now : Rat)
    (h2t : 2 ≤ temps.length) (h2u : 2 ≤ utils.length)
    (hot : EMERGENCY_TEMP ≤ listMax temps) :
    (tick em s (some (temps, utils, powers)) dt now).written =
      some (MAX_PWM, MAX_PWM) ∧
    (tick em s (some (temps, utils, powers)) dt now).state.current_intake_pwm =
      MAX_PWM ∧
    (tick em s (some (temps, utils, powers)) dt now).state.current_exhaust_pwm =
      MAX_PWM := by
  have hfo : find_optimal_pwm s temps = (MAX_PWM, MAX_PWM, "emergency") := by
    simp only [find_optimal_pwm]
    rw [if_pos hot]
  have hex : explore_exhaust s temps utils powers now =
      ({ s with explore_exhaust_idx := EXPLORE_EXHAUST_LEVELS.length - 1,
                explore_start_time := none }, MAX_PWM, "explore-retreat") :=
    explore_exhaust_of_ceiling_le
      (le_trans (by norm_num [EXPLORE_TEMP_CEILING, EMERGENCY_TEMP]) hot)
  have hguard : ¬ (temps.length < 2 ∨ utils.length < 2) := by omega
  have hclamp : max MIN_PWM (min MAX_PWM MAX_PWM) = MAX_PWM := by
    rw [min_self]
    exact max_eq_right (by norm_num [MIN_PWM, MAX_PWM])
  cases em with
  | false =>
    refine ⟨?_, ?_, ?_⟩ <;>
      simp [tick, hguard, hfo, apply_rate_limit, set_pwm, update_history, hclamp,
            MIN_PWM, MAX_PWM]
  | true =>
    refine ⟨?_, ?_, ?_⟩ <;>
      simp [tick, hguard, hfo, hex, apply_rate_limit, set_pwm, update_history, hclamp,
            MIN_PWM, MAX_PWM]

/-- Witness for the emergency override: temperatures [70, 95]. -/
theorem emergency_override_witness :
    (tick false initState (some ([70, 95], [0, 0], [0, 0]))
        POLL_INTERVAL_NORMAL 0).written = some (MAX_PWM, MAX_PWM) :=
  (emergency_override false initState [70, 95] [0, 0] [0, 0]
    POLL_INTERVAL_NORMAL 0 (by decide) (by decide) (by decide)).1

/-- Witness for the clamp invariant: out-of-range requests 300 and 50 are
written as 255 and 110. -/
theorem pwm_clamp_invariant_witness :
    MIN_PWM ≤ (set_pwm initState 300 (some 50)).2.1 ∧
    (set_pwm initState 300 (some 50)).2.1 ≤ MAX_PWM ∧
    MIN_PWM ≤ (set_pwm initState 300 (some 50)).2.2 ∧
    (set_pwm initState 300 (some 50)).2.2 ≤ MAX_PWM ∧
    (set_pwm initState 300 (some 50)).1.current_intake_pwm =
      (set_pwm initState 300 (some 50)).2.1 ∧
    (set_pwm initState 300 (some 50)).1.current_exhaust_pwm =
      (set_pwm initState 300 (some 50)).2.2 :=
  pwm_clamp_invariant.2 initState 300 (some 50)

/-- Witness for the exploration override: a concrete successful tick in
exploration mode writes exactly the policy's (clamped) exhaust value. -/
theorem explore_overrides_exhaust_witness :
    (tick true initState (some ([60, 61], [70, 80], [150, 160]))
        POLL_INTERVAL_NORMAL 2).written.map Prod.snd =
      some (max MIN_PWM
        (min MAX_PWM (explore_exhaust initState [60, 61] [70, 80] [150, 160] 2).2.1)) :=
  explore_overrides_exhaust.1 initState [60, 61] [70, 80] [150, 160]
    POLL_INTERVAL_NORMAL 2 (by decide) (by decide)
